import Mathlib

/-!
# Verification of `capture.It` and `capture.Match`

A shallow embedding of `capture.go`.  `It` swaps the variable holding an
`*os.File` for the write end of a fresh pipe, starts a goroutine that drains
the read end into a buffer, runs the work `fn`, closes the write end and
receives the drained text over an unbuffered channel; three deferred calls
(close the channel, close the read end, restore the variable) run on every
exit path.

The function is concurrent, so it is embedded as a two-thread machine: a
state `St`, one step function per thread (`stepMain` for the calling
goroutine, `stepGor` for the draining goroutine) and a scheduler `step` driven
by a list of picks.  The operating system pipe, the channel and the regular
expression engine are external collaborators; their behaviour is modelled
after the Go runtime:

* `os.Pipe` either hands out two fresh descriptors or fails; the source
  discards its error result, so after a failure `rdr` and `wrt` are nil, and
  every operation on a nil file fails without effect;
* a pipe holds at most `pipeCapacity` bytes, a write to a full pipe blocks, a
  read of an empty pipe blocks until the write end is closed (end of stream)
  or the read end is closed (error);
* a send on an unbuffered channel blocks until the receiver arrives and
  panics when the channel is closed;
* a panic that escapes a goroutine terminates the whole process.
-/

set_option maxRecDepth 100000

namespace Capture

/-- An `*os.File` value: nil, or the file of a descriptor. -/
inductive File where
  | nil
  | fd (n : Nat)
  deriving DecidableEq, Repr

/-- Text travelling through files and pipes. -/
abbrev Bytes := List Char

/-- Capacity of an operating system pipe (the Linux default). -/
def pipeCapacity : Nat := 65536

/-- What the work `fn` can do with respect to the redirected variable. -/
inductive Action where
  /-- Write through the value `*osf` holds at the time of the write. -/
  | write (s : Bytes)
  /-- Write through a file value `f` the work holds itself, such as a copy of
  `*osf` saved before the call. -/
  | writeVia (f : File) (s : Bytes)
  /-- Assign the variable: `*osf = f`. -/
  | assign (f : File)
  deriving DecidableEq, Repr

/-- The work `fn`: a finite sequence of actions, after which it either returns
(`fin = none`) or panics with a value (`fin = some v`). -/
structure Work where
  acts : List Action
  fin : Option String
  deriving DecidableEq, Repr

/-- How a call ends for its caller. -/
inductive Outcome (α : Type) where
  | returned (a : α)
  | panicked (v : String)
  deriving DecidableEq, Repr

/-- The part of the process state `It` is called in: the variable `*osf`, the
next free descriptor, whether the operating system has a pipe to give when
`os.Pipe` is called, and the bytes every file other than the pipe has
received. -/
structure World where
  handle : File
  nextFd : Nat
  pipeOk : Bool
  out : File → Bytes

/-- The first result of `os.Pipe()`: nil when the call fails. -/
def readEnd (w : World) : File :=
  if w.pipeOk then File.fd w.nextFd else File.nil

/-- The second result of `os.Pipe()`: nil when the call fails. -/
def writeEnd (w : World) : File :=
  if w.pipeOk then File.fd (w.nextFd + 1) else File.nil

/-- Program counter of the goroutine that called `It`. -/
inductive MainPc where
  /-- Inside `fn()`, with the actions still to perform. -/
  | running (acts : List Action) (fin : Option String)
  /-- At `wrt.Close()`. -/
  | closeWrt
  /-- At `<-capture`. -/
  | recv
  /-- At the deferred `close(capture)`. -/
  | deferCloseChan (o : Outcome String)
  /-- At the deferred `rdr.Close()`. -/
  | deferCloseRdr (o : Outcome String)
  /-- At the deferred `*osf = std`. -/
  | deferRestore (o : Outcome String)
  /-- Control is back with the caller of `It`. -/
  | done (o : Outcome String)
  deriving DecidableEq, Repr

/-- Program counter of the goroutine started by `It`. -/
inductive GorPc where
  /-- Inside `io.Copy(&buf, rdr)`. -/
  | copying
  /-- At `capture <- buf.String()`. -/
  | sending (s : String)
  /-- The goroutine function has returned. -/
  | exited
  /-- The goroutine panicked; the process is terminated. -/
  | crashed (msg : String)
  deriving DecidableEq, Repr

/-- State of one invocation of `It`. -/
structure St where
  /-- The variable `*osf`. -/
  handle : File
  /-- Bytes received by the files other than the pipe. -/
  out : File → Bytes
  /-- The local `std`. -/
  std : File
  /-- The local `rdr`. -/
  rdr : File
  /-- The local `wrt`. -/
  wrt : File
  /-- Bytes written to the pipe and not yet read. -/
  pipe : Bytes
  rdrOpen : Bool
  wrtOpen : Bool
  /-- Whether the channel `capture` has been closed. -/
  chanClosed : Bool
  /-- The goroutine's `bytes.Buffer`. -/
  buf : Bytes
  main : MainPc
  gor : GorPc
  /-- Number of times the deferred `*osf = std` has run. -/
  restores : Nat

/-- Lines 41 to 54 of `It`, up to and including the `go` statement: no other
goroutine of this invocation exists yet.  The error of `os.Pipe` is discarded:
after a failure the variable is set to the nil `wrt` and there is no open pipe
end. -/
def start (w : World) (fn : Work) : St :=
  { handle := writeEnd w
    out := w.out
    std := w.handle
    rdr := readEnd w
    wrt := writeEnd w
    pipe := []
    rdrOpen := w.pipeOk
    wrtOpen := w.pipeOk
    chanClosed := false
    buf := []
    main := MainPc.running fn.acts fn.fin
    gor := GorPc.copying
    restores := 0 }

/-- Append `s` to what file `t` has received. -/
def upd (o : File → Bytes) (t : File) (s : Bytes) : File → Bytes :=
  fun g => if g = t then o g ++ s else o g

/-- A write of `s` to file `t` by the work; `again` rebuilds the action for
the bytes a full pipe could not take yet.  `none` means the write blocks.  A
write to a nil file, to a closed pipe or to the read end fails and its bytes
are lost. -/
def writeTo (st : St) (t : File) (s : Bytes) (again : Bytes → Action)
    (rest : List Action) (fin : Option String) : Option St :=
  if t = File.nil then
    some { st with main := MainPc.running rest fin }
  else if t = st.wrt then
    if st.wrtOpen = false ∨ st.rdrOpen = false ∨ s = [] then
      some { st with main := MainPc.running rest fin }
    else if pipeCapacity ≤ st.pipe.length then
      none
    else
      let k := min (pipeCapacity - st.pipe.length) s.length
      some { st with pipe := st.pipe ++ s.take k
                     main := MainPc.running (again (s.drop k) :: rest) fin }
  else if t = st.rdr then
    some { st with main := MainPc.running rest fin }
  else
    some { st with out := upd st.out t s
                   main := MainPc.running rest fin }

/-- One step of the goroutine that called `It`; `none` when it is blocked or
has returned to its caller. -/
def stepMain (st : St) : Option St :=
  match st.main with
  | MainPc.running (Action.write s :: rest) fin =>
      writeTo st st.handle s Action.write rest fin
  | MainPc.running (Action.writeVia f s :: rest) fin =>
      writeTo st f s (Action.writeVia f) rest fin
  | MainPc.running (Action.assign f :: rest) fin =>
      some { st with handle := f, main := MainPc.running rest fin }
  | MainPc.running [] none =>
      some { st with main := MainPc.closeWrt }
  | MainPc.running [] (some v) =>
      some { st with main := MainPc.deferCloseChan (Outcome.panicked v) }
  | MainPc.closeWrt =>
      some { st with wrtOpen := false, main := MainPc.recv }
  | MainPc.recv =>
      if st.chanClosed then
        some { st with main := MainPc.deferCloseChan (Outcome.returned "") }
      else
        match st.gor with
        | GorPc.sending s =>
            some { st with main := MainPc.deferCloseChan (Outcome.returned s)
                           gor := GorPc.exited }
        | _ => none
  | MainPc.deferCloseChan o =>
      some { st with chanClosed := true, main := MainPc.deferCloseRdr o }
  | MainPc.deferCloseRdr o =>
      some { st with rdrOpen := false, main := MainPc.deferRestore o }
  | MainPc.deferRestore o =>
      some { st with handle := st.std, restores := st.restores + 1
                     main := MainPc.done o }
  | MainPc.done _ => none

/-- One step of the goroutine started by `It`; `none` when it is blocked or
finished. -/
def stepGor (st : St) : Option St :=
  match st.gor with
  | GorPc.copying =>
      if st.rdrOpen = false then
        some { st with gor := GorPc.sending (String.mk st.buf) }
      else if st.pipe ≠ [] then
        some { st with buf := st.buf ++ st.pipe, pipe := [] }
      else if st.wrtOpen = false then
        some { st with gor := GorPc.sending (String.mk st.buf) }
      else none
  | GorPc.sending s =>
      if st.chanClosed then
        some { st with gor := GorPc.crashed "send on closed channel" }
      else
        match st.main with
        | MainPc.recv =>
            some { st with main := MainPc.deferCloseChan (Outcome.returned s)
                           gor := GorPc.exited }
        | _ => none
  | GorPc.exited => none
  | GorPc.crashed _ => none

/-- Whether a panic escaped the started goroutine, which ends the process. -/
def St.dead (st : St) : Bool :=
  match st.gor with
  | GorPc.crashed _ => true
  | _ => false

/-- One scheduler step.  `pick = true` prefers the calling goroutine,
`pick = false` the started one; a goroutine that cannot move leaves the
processor to the other.  Nothing moves in a terminated process. -/
def step (pick : Bool) (st : St) : St :=
  if st.dead then st
  else if pick then
    match stepMain st with
    | some st1 => st1
    | none => (stepGor st).getD st
  else
    match stepGor st with
    | some st1 => st1
    | none => (stepMain st).getD st

/-- Run the machine along a schedule. -/
def run : List Bool → St → St
  | [], st => st
  | b :: sched, st => run sched (step b st)

/-- The machine state reached by `It(osf, fn)` under a schedule. -/
def exec (sched : List Bool) (w : World) (fn : Work) : St :=
  run sched (start w fn)

/-- What the caller of `It` has got back, if control is back with it. -/
def St.result (st : St) : Option (Outcome String) :=
  match st.main with
  | MainPc.done o => some o
  | _ => none

/-- The function `It`: what the call hands to its caller under a schedule,
`none` while the call has not returned control. -/
def It (sched : List Bool) (w : World) (fn : Work) : Option (Outcome String) :=
  (exec sched w fn).result

/-! ## What a run is compared with -/

/-- Bytes the actions write to the file `wrt`, when the variable holds `h` at
their start: the writes through the variable while it holds `wrt` and the
writes through a copy of `wrt` the work took.  A nil file takes no bytes. -/
def pipeBytes (wrt : File) : File → List Action → Bytes
  | _, [] => []
  | h, Action.write s :: rest =>
      (if h ≠ File.nil ∧ h = wrt then s else []) ++ pipeBytes wrt h rest
  | h, Action.writeVia f s :: rest =>
      (if f ≠ File.nil ∧ f = wrt then s else []) ++ pipeBytes wrt h rest
  | _, Action.assign f :: rest => pipeBytes wrt f rest

/-- Bytes the other files have received after the actions, when the variable
holds `h` at their start and the files hold `o`. -/
def outAfter (rdr wrt : File) : File → (File → Bytes) → List Action → (File → Bytes)
  | _, o, [] => o
  | h, o, Action.write s :: rest =>
      outAfter rdr wrt h (if h = File.nil ∨ h = wrt ∨ h = rdr then o else upd o h s) rest
  | h, o, Action.writeVia f s :: rest =>
      outAfter rdr wrt h (if f = File.nil ∨ f = wrt ∨ f = rdr then o else upd o f s) rest
  | _, o, Action.assign f :: rest => outAfter rdr wrt f o rest

/-- The text `It` is to hand back for the work in the world: the bytes the
work writes to the file `It` put into the variable. -/
def captured (w : World) (fn : Work) : Bytes :=
  pipeBytes (writeEnd w) (writeEnd w) fn.acts

/-- The files after the work in the world. -/
def finalOut (w : World) (fn : Work) : File → Bytes :=
  outAfter (readEnd w) (writeEnd w) (writeEnd w) w.out fn.acts

/-- How the call is to end for the caller of `It`. -/
def expected (w : World) (fn : Work) : Outcome String :=
  match fn.fin with
  | none => Outcome.returned (String.mk (captured w fn))
  | some v => Outcome.panicked v

/-! ## Fuel -/

/-- Steps an action can take: one per byte moved into the pipe, one per byte
read out of it, one to finish. -/
def Action.cost : Action → Nat
  | Action.write s => 2 * s.length + 1
  | Action.writeVia _ s => 2 * s.length + 1
  | Action.assign _ => 1

/-- Steps a list of actions can take. -/
def actsCost : List Action → Nat
  | [] => 0
  | a :: rest => a.cost + actsCost rest

/-- Steps the calling goroutine still has to take. -/
def MainPc.cost : MainPc → Nat
  | MainPc.running acts _ => actsCost acts + 6
  | MainPc.closeWrt => 5
  | MainPc.recv => 4
  | MainPc.deferCloseChan _ => 3
  | MainPc.deferCloseRdr _ => 2
  | MainPc.deferRestore _ => 1
  | MainPc.done _ => 0

/-- Steps the started goroutine still has to take, reads apart. -/
def GorPc.cost : GorPc → Nat
  | GorPc.copying => 2
  | GorPc.sending _ => 1
  | GorPc.exited => 0
  | GorPc.crashed _ => 0

/-- Upper bound on the scheduler steps left in a state. -/
def St.cost (st : St) : Nat :=
  st.main.cost + st.gor.cost + st.pipe.length

/-- Schedule length that is enough for `It` to finish on the work. -/
def fuel (fn : Work) : Nat :=
  actsCost fn.acts + 8

/-- Neither goroutine will move again. -/
def St.halted (st : St) : Prop :=
  st.dead = true ∨ ((∃ o, st.main = MainPc.done o) ∧ st.gor = GorPc.exited)

/-! ## The invariant of a run -/

/-- State of the started goroutine while the work runs: it is copying, or,
when there is no pipe, its read has failed and it waits to send. -/
def gorAtWork (w : World) (fn : Work) (st : St) : Prop :=
  st.gor = GorPc.copying ∨
    (w.pipeOk = false ∧ st.gor = GorPc.sending (String.mk (captured w fn)))

/-- State of the started goroutine on the path where the work panics. -/
def gorOnPanic (st : St) : Prop :=
  match st.gor with
  | GorPc.copying => True
  | GorPc.sending _ => st.rdrOpen = false
  | GorPc.exited => False
  | GorPc.crashed m => m = "send on closed channel" ∧ st.chanClosed = true

/-- What holds of the pipe and the started goroutine once the work is over. -/
def afterWork (w : World) (fn : Work) (st : St) : Prop :=
  match fn.fin with
  | none => st.gor = GorPc.exited ∧ st.wrtOpen = false
  | some _ => st.wrtOpen = w.pipeOk ∧ gorOnPanic st

/-- Invariant of every state reached from `start w fn`. -/
def Inv (w : World) (fn : Work) (st : St) : Prop :=
  st.std = w.handle ∧ st.rdr = readEnd w ∧ st.wrt = writeEnd w ∧
  match st.main with
  | MainPc.running acts fin =>
      fin = fn.fin ∧ gorAtWork w fn st ∧ st.rdrOpen = w.pipeOk ∧ st.wrtOpen = w.pipeOk ∧
      st.chanClosed = false ∧ st.restores = 0 ∧
      st.buf ++ (st.pipe ++ pipeBytes st.wrt st.handle acts) = captured w fn ∧
      outAfter st.rdr st.wrt st.handle st.out acts = finalOut w fn
  | MainPc.closeWrt =>
      fn.fin = none ∧ gorAtWork w fn st ∧ st.rdrOpen = w.pipeOk ∧ st.wrtOpen = w.pipeOk ∧
      st.chanClosed = false ∧ st.restores = 0 ∧
      st.buf ++ st.pipe = captured w fn ∧
      st.out = finalOut w fn
  | MainPc.recv =>
      fn.fin = none ∧ st.rdrOpen = w.pipeOk ∧ st.wrtOpen = false ∧
      st.chanClosed = false ∧ st.restores = 0 ∧
      st.out = finalOut w fn ∧
      ((st.gor = GorPc.copying ∧ st.buf ++ st.pipe = captured w fn) ∨
        st.gor = GorPc.sending (String.mk (captured w fn)))
  | MainPc.deferCloseChan o =>
      o = expected w fn ∧ st.rdrOpen = w.pipeOk ∧ st.chanClosed = false ∧ st.restores = 0 ∧
      st.out = finalOut w fn ∧
      afterWork w fn st
  | MainPc.deferCloseRdr o =>
      o = expected w fn ∧ st.rdrOpen = w.pipeOk ∧ st.chanClosed = true ∧ st.restores = 0 ∧
      st.out = finalOut w fn ∧
      afterWork w fn st
  | MainPc.deferRestore o =>
      o = expected w fn ∧ st.rdrOpen = false ∧ st.chanClosed = true ∧ st.restores = 0 ∧
      st.out = finalOut w fn ∧
      afterWork w fn st
  | MainPc.done o =>
      o = expected w fn ∧ st.rdrOpen = false ∧ st.chanClosed = true ∧ st.restores = 1 ∧
      st.handle = w.handle ∧
      st.out = finalOut w fn ∧
      afterWork w fn st

/-! ## `Match` and the regular expression engine -/

/-- An `error` value as `Match` can return it. -/
inductive GoError where
  /-- The error `regexp.MatchString` reports for a pattern it cannot compile. -/
  | regexp (e : String)
  /-- An error made by `errors.New(msg)`. -/
  | errorString (msg : String)
  deriving DecidableEq, Repr

/-- The package `regexp`, an external collaborator: compiling a pattern gives
an error or a compiled expression, taken as the test `MatchString` performs
with it on a string. -/
structure Regexp where
  compile : String → Except String (String → Bool)

/-- The call `regexp.MatchString(pattern, s)`: compile the pattern, then test
the string. -/
def Regexp.MatchString (re : Regexp) (pattern s : String) : Bool × Option GoError :=
  match re.compile pattern with
  | Except.error e => (false, some (GoError.regexp e))
  | Except.ok m => (m s, none)

/-- The function `Match`: what the call hands to its caller under a schedule,
`none` while `It` has not returned control. -/
def Match (re : Regexp) (sched : List Bool) (w : World) (fn : Work) (regex : String) :
    Option (Outcome (Option GoError)) :=
  match It sched w fn with
  | none => none
  | some (Outcome.panicked v) => some (Outcome.panicked v)
  | some (Outcome.returned msg) =>
      match re.MatchString regex msg with
      | (_, some err) => some (Outcome.returned (some err))
      | (ok, none) =>
          if !ok then
            some (Outcome.returned (some (GoError.errorString
              ("String: '" ++ msg ++ "' fails to match regexp: '" ++ regex ++ "'."))))
          else
            some (Outcome.returned none)

/-! ## A small engine for the scenarios

The scenarios name concrete patterns.  To run them, `miniRegexp` implements the
fragment of the pattern language they use: an optional leading `^`, literal
characters, `.` for any character but a newline, and a postfix `+`.  Every
other metacharacter, an unbalanced bracket among them, is a compile error. -/

/-- An item of a pattern: a literal (`some c`) or any character (`none`), once
or one or more times. -/
structure Item where
  lit : Option Char
  plus : Bool
  deriving DecidableEq, Repr

/-- Whether a character passes the test of an item. -/
def Item.test (it : Item) (d : Char) : Bool :=
  match it.lit with
  | some c => d = c
  | none => d ≠ '\n'

/-- Characters that are not literals. -/
def isMeta (c : Char) : Bool :=
  c = '[' || c = ']' || c = '(' || c = ')' || c = '*' || c = '+' || c = '?' ||
  c = '|' || c = '^' || c = '$' || c = '\\'

/-- Read one more pattern character; the items read so far are kept in
reverse, `none` is a compile error. -/
def addChar (acc : Option (List Item)) (c : Char) : Option (List Item) :=
  match acc with
  | none => none
  | some items =>
      if c = '+' then
        match items with
        | it :: rest => if it.plus then none else some (Item.mk it.lit true :: rest)
        | [] => none
      else if isMeta c then none
      else some (Item.mk (if c = '.' then none else some c) false :: items)

/-- The items of a pattern body. -/
def parseItems (body : List Char) : Option (List Item) :=
  (body.foldl addChar (some [])).map List.reverse

/-- One or more characters passing `t`, then `k` on what follows. -/
def matchPlus (t : Char → Bool) (k : List Char → Bool) : List Char → Bool
  | [] => false
  | c :: cs => t c && (k cs || matchPlus t k cs)

/-- Whether the items match a prefix of the text. -/
def matchItems : List Item → List Char → Bool
  | [], _ => true
  | it :: rest, s =>
      if it.plus then matchPlus it.test (matchItems rest) s
      else
        match s with
        | [] => false
        | c :: cs => it.test c && matchItems rest cs

/-- Whether the items match somewhere in the text. -/
def searchItems (items : List Item) : List Char → Bool
  | [] => matchItems items []
  | c :: cs => matchItems items (c :: cs) || searchItems items cs

/-- The small engine. -/
def miniRegexp : Regexp where
  compile pattern :=
    match pattern.data with
    | '^' :: body =>
        match parseItems body with
        | some items => Except.ok (fun s => matchItems items s.data)
        | none => Except.error ("error parsing regexp: " ++ pattern)
    | body =>
        match parseItems body with
        | some items => Except.ok (fun s => searchItems items s.data)
        | none => Except.error ("error parsing regexp: " ++ pattern)

/-! ## Sample inputs -/

/-- A world whose variable holds file 1, with descriptors 0 to 2 in use,
nothing written yet, and a pipe to give. -/
def sampleWorld : World :=
  { handle := File.fd 1, nextFd := 3, pipeOk := true, out := fun _ => [] }

/-- The same world when the operating system has no pipe to give. -/
def brokenWorld : World :=
  { handle := File.fd 1, nextFd := 3, pipeOk := false, out := fun _ => [] }

/-- A work that writes `hello world` through the variable. -/
def helloWork : Work := { acts := [Action.write "hello world".data], fin := none }

/-- A work that writes nothing. -/
def silentWork : Work := { acts := [], fin := none }

/-- A work that panics after one write through the variable. -/
def panicWork : Work := { acts := [Action.write "half".data], fin := some "boom" }

/-- A schedule that always prefers the calling goroutine. -/
def mainFirst (n : Nat) : List Bool := List.replicate n true

/-- A schedule that always prefers the started goroutine. -/
def gorFirst (n : Nat) : List Bool := List.replicate n false


/-! ## Lemmas on single steps -/

theorem pipeCapacity_pos : 0 < pipeCapacity := by decide

theorem writeTo_cost (st st1 : St) (t : File) (s : Bytes) (again : Bytes → Action)
    (rest : List Action) (fin : Option String)
    (hmain : st.main.cost = 2 * s.length + 1 + actsCost rest + 6)
    (hag : ∀ r, (again r).cost = 2 * r.length + 1)
    (h : writeTo st t s again rest fin = some st1) : st1.cost < st.cost := by
  unfold writeTo at h
  have hc : st.cost = 2 * s.length + 1 + actsCost rest + 6 + st.gor.cost + st.pipe.length := by
    simp only [St.cost, hmain]
  split_ifs at h with h0 h1 h2 h3 h4
  · cases h; rw [hc]; simp only [St.cost, MainPc.cost]; omega
  · cases h; rw [hc]; simp only [St.cost, MainPc.cost]; omega
  · cases h
    have hk : 0 < min (pipeCapacity - st.pipe.length) s.length := by
      have : 0 < s.length := by
        rcases s with _ | ⟨c, s⟩
        · simp at h2
        · simp
      omega
    rw [hc]
    simp only [St.cost, MainPc.cost, actsCost, hag, List.length_append,
      List.length_take, List.length_drop]
    omega
  · cases h; rw [hc]; simp only [St.cost, MainPc.cost]; omega
  · cases h; rw [hc]; simp only [St.cost, MainPc.cost]; omega

theorem stepMain_cost (st st1 : St) (h : stepMain st = some st1) : st1.cost < st.cost := by
  unfold stepMain at h
  split at h
  next s rest fin hm =>
    exact writeTo_cost st st1 _ s Action.write rest fin
      (by simp [hm, MainPc.cost, actsCost, Action.cost]) (fun r => rfl) h
  next f s rest fin hm =>
    exact writeTo_cost st st1 _ s (Action.writeVia f) rest fin
      (by simp [hm, MainPc.cost, actsCost, Action.cost]) (fun r => rfl) h
  next f rest fin hm =>
    cases h; simp only [St.cost, MainPc.cost, hm, actsCost, Action.cost]; omega
  next hm => cases h; simp only [St.cost, MainPc.cost, hm, actsCost]; omega
  next v hm => cases h; simp only [St.cost, MainPc.cost, hm, actsCost]; omega
  next hm => cases h; simp only [St.cost, MainPc.cost, hm]; omega
  next hm =>
    split_ifs at h with hc
    · cases h; simp only [St.cost, MainPc.cost, hm]; omega
    · split at h
      next s hg => cases h; simp only [St.cost, MainPc.cost, GorPc.cost, hm, hg]; omega
      next => cases h
  next o hm => cases h; simp only [St.cost, MainPc.cost, hm]; omega
  next o hm => cases h; simp only [St.cost, MainPc.cost, hm]; omega
  next o hm => cases h; simp only [St.cost, MainPc.cost, hm]; omega
  next o hm => cases h

theorem stepGor_cost (st st1 : St) (h : stepGor st = some st1) : st1.cost < st.cost := by
  unfold stepGor at h
  split at h
  next hg =>
    split_ifs at h with h1 h2 h3
    · cases h; simp only [St.cost, GorPc.cost, hg]; omega
    · cases h
      have : 0 < st.pipe.length := List.length_pos.mpr h2
      simp only [St.cost, GorPc.cost, hg, List.length_nil]; omega
    · cases h; simp only [St.cost, GorPc.cost, hg]; omega
  next s hg =>
    split_ifs at h with hc
    · cases h; simp only [St.cost, GorPc.cost, hg]; omega
    · split at h
      next hm => cases h; simp only [St.cost, MainPc.cost, GorPc.cost, hm, hg]; omega
      next => cases h
  next hg => cases h
  next m hg => cases h


theorem Inv_start (w : World) (fn : Work) : Inv w fn (start w fn) := by
  simp [Inv, start, captured, finalOut, gorAtWork]

/-- Without a pipe nothing is captured. -/
theorem pipeBytes_nil (h : File) (acts : List Action) : pipeBytes File.nil h acts = [] := by
  induction acts generalizing h with
  | nil => rfl
  | cons a acts ih =>
    cases a with
    | write s =>
      have hn : ¬ (h ≠ File.nil ∧ h = File.nil) := fun hh => hh.1 hh.2
      simp only [pipeBytes, if_neg hn, List.nil_append, ih]
    | writeVia f s =>
      have hn : ¬ (f ≠ File.nil ∧ f = File.nil) := fun hh => hh.1 hh.2
      simp only [pipeBytes, if_neg hn, List.nil_append, ih]
    | assign f => simp only [pipeBytes, ih]

theorem captured_of_no_pipe (w : World) (fn : Work) (hp : w.pipeOk = false) :
    captured w fn = [] := by
  simp [captured, writeEnd, hp, pipeBytes_nil]

theorem pipeOk_of_writeEnd (w : World) (t : File) (ht : t ≠ File.nil) (h : t = writeEnd w) :
    w.pipeOk = true := by
  cases hp : w.pipeOk with
  | true => rfl
  | false => rw [h] at ht; simp [writeEnd, hp] at ht

theorem writeTo_inv (w : World) (fn : Work) (st st1 : St) (t : File) (s : Bytes)
    (again : Bytes → Action) (rest : List Action) (fin : Option String)
    (hm : st.main = MainPc.running (again s :: rest) fin)
    (hpb : ∀ r, pipeBytes st.wrt st.handle (again r :: rest) =
      (if t ≠ File.nil ∧ t = st.wrt then r else []) ++ pipeBytes st.wrt st.handle rest)
    (hout : ∀ r o, outAfter st.rdr st.wrt st.handle o (again r :: rest) =
      outAfter st.rdr st.wrt st.handle
        (if t = File.nil ∨ t = st.wrt ∨ t = st.rdr then o else upd o t r) rest)
    (hinv : Inv w fn st) (h : writeTo st t s again rest fin = some st1) : Inv w fn st1 := by
  obtain ⟨h1, h2, h3, hrest⟩ := hinv
  rw [hm] at hrest
  obtain ⟨hf, hg, hro, hwo, hcc, hrs, hb, ho⟩ := hrest
  rw [hpb] at hb
  rw [hout] at ho
  unfold writeTo at h
  split_ifs at h with c0 c1 c2 c3 c4
  · -- a nil file
    cases h
    rw [if_neg (fun hh => hh.1 c0)] at hb
    rw [if_pos (Or.inl c0)] at ho
    exact ⟨h1, h2, h3, hf, hg, hro, hwo, hcc, hrs, by simpa using hb, ho⟩
  · -- the write end, nothing to write
    cases h
    have hp : w.pipeOk = true := pipeOk_of_writeEnd w t c0 (c1.trans h3)
    have hs : s = [] := by simpa [hro, hwo, hp] using c2
    subst hs
    rw [if_pos (Or.inr (Or.inl c1))] at ho
    exact ⟨h1, h2, h3, hf, hg, hro, hwo, hcc, hrs, by simpa using hb, ho⟩
  · -- the write end takes a chunk
    cases h
    rw [if_pos ⟨c0, c1⟩] at hb
    rw [if_pos (Or.inr (Or.inl c1))] at ho
    refine ⟨h1, h2, h3, hf, hg, hro, hwo, hcc, hrs, ?_, ?_⟩
    · simp only [hpb, if_pos (And.intro c0 c1)]
      rw [← hb, List.append_assoc, ← List.append_assoc (List.take _ s) (List.drop _ s),
        List.take_append_drop]
    · simp only [hout, if_pos (Or.inr (Or.inl c1))]
      exact ho
  · -- the read end
    cases h
    rw [if_neg (fun hh => c1 hh.2)] at hb
    rw [if_pos (Or.inr (Or.inr c4))] at ho
    exact ⟨h1, h2, h3, hf, hg, hro, hwo, hcc, hrs, by simpa using hb, ho⟩
  · -- another file
    cases h
    rw [if_neg (fun hh => c1 hh.2)] at hb
    rw [if_neg (by simp [c0, c1, c4])] at ho
    exact ⟨h1, h2, h3, hf, hg, hro, hwo, hcc, hrs, by simpa using hb, ho⟩

theorem stepMain_inv (w : World) (fn : Work) (st st1 : St) (hinv : Inv w fn st)
    (h : stepMain st = some st1) : Inv w fn st1 := by
  unfold stepMain at h
  split at h
  next s rest fin hm =>
    exact writeTo_inv w fn st st1 st.handle s Action.write rest fin hm
      (fun r => rfl) (fun r o => rfl) hinv h
  next f s rest fin hm =>
    exact writeTo_inv w fn st st1 f s (Action.writeVia f) rest fin hm
      (fun r => rfl) (fun r o => rfl) hinv h
  next f rest fin hm =>
    cases h
    obtain ⟨h1, h2, h3, hrest⟩ := hinv
    rw [hm] at hrest
    exact ⟨h1, h2, h3, hrest⟩
  next hm =>
    cases h
    obtain ⟨h1, h2, h3, hrest⟩ := hinv
    rw [hm] at hrest
    obtain ⟨hf, hg, hro, hwo, hcc, hrs, hb, ho⟩ := hrest
    exact ⟨h1, h2, h3, hf.symm, hg, hro, hwo, hcc, hrs, by simpa [pipeBytes] using hb, ho⟩
  next v hm =>
    cases h
    obtain ⟨h1, h2, h3, hrest⟩ := hinv
    rw [hm] at hrest
    obtain ⟨hf, hg, hro, hwo, hcc, hrs, hb, ho⟩ := hrest
    refine ⟨h1, h2, h3, ?_, hro, hcc, hrs, ho, ?_⟩
    · simp [expected, ← hf]
    · rcases hg with hg | ⟨hp, hg⟩
      · simp [afterWork, ← hf, gorOnPanic, hg, hwo]
      · simp [afterWork, ← hf, gorOnPanic, hg, hwo, hro, hp]
  next hm =>
    cases h
    obtain ⟨h1, h2, h3, hrest⟩ := hinv
    rw [hm] at hrest
    obtain ⟨hf, hg, hro, hwo, hcc, hrs, hb, ho⟩ := hrest
    refine ⟨h1, h2, h3, hf, hro, rfl, hcc, hrs, ho, ?_⟩
    rcases hg with hg | ⟨hp, hg⟩
    · exact Or.inl ⟨hg, hb⟩
    · exact Or.inr hg
  next hm =>
    obtain ⟨h1, h2, h3, hrest⟩ := hinv
    rw [hm] at hrest
    obtain ⟨hf, hro, hwo, hcc, hrs, ho, hg⟩ := hrest
    split_ifs at h with hc
    · rw [hcc] at hc; cases hc
    · split at h
      next s hs =>
        cases h
        rcases hg with ⟨hg, _⟩ | hg
        · rw [hg] at hs; cases hs
        · rw [hg] at hs; cases hs
          refine ⟨h1, h2, h3, ?_, hro, hcc, hrs, ho, ?_⟩
          · simp [expected, hf]
          · simp [afterWork, hf, hwo]
      next => cases h
  next o hm =>
    cases h
    obtain ⟨h1, h2, h3, hrest⟩ := hinv
    rw [hm] at hrest
    obtain ⟨he, hro, hcc, hrs, ho, ha⟩ := hrest
    refine ⟨h1, h2, h3, he, hro, rfl, hrs, ho, ?_⟩
    revert ha
    unfold afterWork gorOnPanic
    cases fn.fin <;> cases hgg : st.gor <;> simp [hgg, hcc]
  next o hm =>
    cases h
    obtain ⟨h1, h2, h3, hrest⟩ := hinv
    rw [hm] at hrest
    obtain ⟨he, hro, hcc, hrs, ho, ha⟩ := hrest
    refine ⟨h1, h2, h3, he, rfl, hcc, hrs, ho, ?_⟩
    revert ha
    unfold afterWork gorOnPanic
    cases fn.fin <;> cases hgg : st.gor <;>
      first | (simp [hgg, hcc]; done) | (simp [hgg, hcc]; intros; assumption)
  next o hm =>
    cases h
    obtain ⟨h1, h2, h3, hrest⟩ := hinv
    rw [hm] at hrest
    obtain ⟨he, hro, hcc, hrs, ho, ha⟩ := hrest
    refine ⟨h1, h2, h3, he, hro, hcc, by simp [hrs], h1, ho, ?_⟩
    revert ha
    unfold afterWork gorOnPanic
    cases fn.fin <;> cases hgg : st.gor <;> simp [hgg, hro, hcc]
  next o hm => cases h

theorem stepGor_inv (w : World) (fn : Work) (st st1 : St) (hinv : Inv w fn st)
    (h : stepGor st = some st1) : Inv w fn st1 := by
  obtain ⟨h1, h2, h3, hrest⟩ := hinv
  unfold stepGor at h
  split at h
  next hg =>
    split_ifs at h with c1 c2 c3
    · -- the read end is closed or nil: the read fails
      cases h
      refine ⟨h1, h2, h3, ?_⟩
      cases hm : st.main with
      | running acts fin =>
        rw [hm] at hrest
        obtain ⟨hf, _, hro, hwo, hcc, hrs, hb, ho⟩ := hrest
        have hp : w.pipeOk = false := by rw [← hro]; exact c1
        have hcap := captured_of_no_pipe w fn hp
        rw [hcap] at hb
        have hbuf : st.buf = [] := (List.append_eq_nil.mp hb).1
        exact ⟨hf, Or.inr ⟨hp, by simp [hbuf, hcap]⟩, hro, hwo, hcc, hrs, by rw [hcap]; exact hb, ho⟩
      | closeWrt =>
        rw [hm] at hrest
        obtain ⟨hf, _, hro, hwo, hcc, hrs, hb, ho⟩ := hrest
        have hp : w.pipeOk = false := by rw [← hro]; exact c1
        have hcap := captured_of_no_pipe w fn hp
        rw [hcap] at hb
        have hbuf : st.buf = [] := (List.append_eq_nil.mp hb).1
        exact ⟨hf, Or.inr ⟨hp, by simp [hbuf, hcap]⟩, hro, hwo, hcc, hrs, by rw [hcap]; exact hb, ho⟩
      | recv =>
        rw [hm] at hrest
        obtain ⟨hf, hro, hwo, hcc, hrs, ho, hgg⟩ := hrest
        have hp : w.pipeOk = false := by rw [← hro]; exact c1
        have hcap := captured_of_no_pipe w fn hp
        refine ⟨hf, hro, hwo, hcc, hrs, ho, Or.inr ?_⟩
        rcases hgg with ⟨_, hb⟩ | hgg
        · rw [hcap] at hb
          have hbuf : st.buf = [] := (List.append_eq_nil.mp hb).1
          simp [hbuf, hcap]
        · rw [hgg] at hg; cases hg
      | deferCloseChan o =>
        rw [hm] at hrest
        revert hrest
        simp only [afterWork, gorOnPanic, hg]
        cases fn.fin <;> simp [c1]
      | deferCloseRdr o =>
        rw [hm] at hrest
        revert hrest
        simp only [afterWork, gorOnPanic, hg]
        cases fn.fin <;> simp [c1]
      | deferRestore o =>
        rw [hm] at hrest
        revert hrest
        simp only [afterWork, gorOnPanic, hg]
        cases fn.fin <;> simp [c1]
      | done o =>
        rw [hm] at hrest
        revert hrest
        simp only [afterWork, gorOnPanic, hg]
        cases fn.fin <;> simp [c1]
    · -- bytes are moved from the pipe to the buffer
      cases h
      refine ⟨h1, h2, h3, ?_⟩
      revert hrest
      cases hm : st.main <;>
        simp [hm, hg, afterWork, gorOnPanic, gorAtWork, List.append_assoc]
    · -- end of stream
      cases h
      have hp : st.pipe = [] := by simpa using c2
      have hro : st.rdrOpen = true := by simpa using c1
      refine ⟨h1, h2, h3, ?_⟩
      cases hm : st.main with
      | running acts fin =>
        rw [hm] at hrest
        obtain ⟨hf, _, hro2, hwo, hcc, hrs, hb, ho⟩ := hrest
        rw [hro2] at hro
        rw [hwo, hro] at c3
        cases c3
      | closeWrt =>
        rw [hm] at hrest
        obtain ⟨hf, _, hro2, hwo, hcc, hrs, hb, ho⟩ := hrest
        rw [hro2] at hro
        rw [hwo, hro] at c3
        cases c3
      | recv =>
        rw [hm] at hrest
        obtain ⟨hf, hro2, hwo, hcc, hrs, ho, hgg⟩ := hrest
        refine ⟨hf, hro2, hwo, hcc, hrs, ho, Or.inr ?_⟩
        rcases hgg with ⟨_, hb⟩ | hgg
        · rw [hp] at hb
          simp only [List.append_nil] at hb
          simp [hb]
        · rw [hgg] at hg; cases hg
      | deferCloseChan o =>
        rw [hm] at hrest
        revert hrest
        simp only [afterWork, gorOnPanic, hg]
        cases fn.fin <;> first | (simp [hro, c3]; done) | (simp [hro, c3]; intros; simp_all)
      | deferCloseRdr o =>
        rw [hm] at hrest
        revert hrest
        simp only [afterWork, gorOnPanic, hg]
        cases fn.fin <;> first | (simp [hro, c3]; done) | (simp [hro, c3]; intros; simp_all)
      | deferRestore o =>
        rw [hm] at hrest
        revert hrest
        simp only [afterWork, gorOnPanic, hg]
        cases fn.fin <;> simp [hro, c3]
      | done o =>
        rw [hm] at hrest
        revert hrest
        simp only [afterWork, gorOnPanic, hg]
        cases fn.fin <;> simp [hro, c3]
  next s hg =>
    split_ifs at h with hc
    · cases h
      refine ⟨h1, h2, h3, ?_⟩
      revert hrest
      cases hm : st.main <;> simp [hm, hg, hc, afterWork, gorOnPanic, gorAtWork]
      all_goals (cases fn.fin <;> first | (simp; done) | (simp; intros; simp_all))
    · split at h
      next hm =>
        cases h
        rw [hm] at hrest
        obtain ⟨hf, hro, hwo, hcc, hrs, ho, hgg⟩ := hrest
        rcases hgg with ⟨hgg, _⟩ | hgg
        · rw [hgg] at hg; cases hg
        · rw [hgg] at hg; cases hg
          refine ⟨h1, h2, h3, ?_, hro, hcc, hrs, ho, ?_⟩
          · simp [expected, hf]
          · simp [afterWork, hf, hwo]
      next => cases h
  next hg => cases h
  next m hg => cases h

theorem writeTo_none (st : St) (t : File) (s : Bytes) (again : Bytes → Action)
    (rest : List Action) (fin : Option String) (h : writeTo st t s again rest fin = none) :
    pipeCapacity ≤ st.pipe.length := by
  unfold writeTo at h
  split_ifs at h with c0 c1 c2 c3 c4
  exact c3

theorem stepMain_none_running (st : St) (acts : List Action) (fin : Option String)
    (hm : st.main = MainPc.running acts fin) (h : stepMain st = none) :
    pipeCapacity ≤ st.pipe.length := by
  unfold stepMain at h
  split at h <;> first
    | exact writeTo_none _ _ _ _ _ _ h
    | (cases h; done)
    | (rename_i hm2; rw [hm] at hm2; cases hm2)

theorem pipe_ne_nil_of_blocked (st : St) (acts : List Action) (fin : Option String)
    (hm : st.main = MainPc.running acts fin) (h : stepMain st = none) : st.pipe ≠ [] := by
  intro hp
  have hfull := stepMain_none_running st acts fin hm h
  have := pipeCapacity_pos
  rw [hp] at hfull
  simp at hfull
  omega

theorem progress (w : World) (fn : Work) (st : St) (hinv : Inv w fn st)
    (hh : ¬ st.halted) : (stepMain st).isSome = true ∨ (stepGor st).isSome = true := by
  obtain ⟨h1, h2, h3, hrest⟩ := hinv
  cases hm : st.main with
  | running acts fin =>
    rw [hm] at hrest
    obtain ⟨hf, hg, hro, hwo, hcc, hrs, hb, ho⟩ := hrest
    cases hs : stepMain st with
    | some st1 => exact Or.inl rfl
    | none =>
      right
      have hp := pipe_ne_nil_of_blocked st acts fin hm hs
      rcases hg with hg | ⟨hpo, hg⟩
      · cases hpo : w.pipeOk <;> simp [stepGor, hg, hro, hp, hpo]
      · rw [captured_of_no_pipe w fn hpo] at hb
        exact absurd (List.append_eq_nil.mp (List.append_eq_nil.mp hb).2).1 hp
  | closeWrt => left; simp [stepMain, hm]
  | recv =>
    rw [hm] at hrest
    obtain ⟨hf, hro, hwo, hcc, hrs, ho, hg⟩ := hrest
    rcases hg with ⟨hg, _⟩ | hg
    · right
      by_cases hp : st.pipe = [] <;> cases hpo : w.pipeOk <;>
        simp [stepGor, hg, hro, hwo, hp, hpo]
    · left; simp [stepMain, hm, hcc, hg]
  | deferCloseChan o => left; simp [stepMain, hm]
  | deferCloseRdr o => left; simp [stepMain, hm]
  | deferRestore o => left; simp [stepMain, hm]
  | done o =>
    rw [hm] at hrest
    obtain ⟨he, hro, hcc, hrs, hh2, ho, ha⟩ := hrest
    right
    unfold afterWork at ha
    cases hfin : fn.fin with
    | none =>
      rw [hfin] at ha
      exact absurd (Or.inr ⟨⟨o, hm⟩, ha.1⟩) hh
    | some v =>
      rw [hfin] at ha
      obtain ⟨hwo, hgp⟩ := ha
      unfold gorOnPanic at hgp
      cases hg : st.gor with
      | copying => simp [stepGor, hg, hro]
      | sending s => simp [stepGor, hg, hcc]
      | exited => rw [hg] at hgp; exact hgp.elim
      | crashed m => exact absurd (Or.inl (by simp [St.dead, hg])) hh

theorem step_halted (b : Bool) (st : St) (hh : st.halted) : step b st = st := by
  rcases hh with hd | ⟨⟨o, hm⟩, hg⟩
  · simp [step, hd]
  · have hM : stepMain st = none := by simp [stepMain, hm]
    have hG : stepGor st = none := by simp [stepGor, hg]
    simp [step, hM, hG]

theorem step_inv (w : World) (fn : Work) (b : Bool) (st : St) (hinv : Inv w fn st) :
    Inv w fn (step b st) := by
  unfold step
  split_ifs with hd hb
  · exact hinv
  · cases hM : stepMain st with
    | some st1 => exact stepMain_inv w fn st st1 hinv hM
    | none =>
      cases hG : stepGor st with
      | some st1 => exact stepGor_inv w fn st st1 hinv hG
      | none => exact hinv
  · cases hG : stepGor st with
    | some st1 => exact stepGor_inv w fn st st1 hinv hG
    | none =>
      cases hM : stepMain st with
      | some st1 => exact stepMain_inv w fn st st1 hinv hM
      | none => exact hinv

theorem step_cost (w : World) (fn : Work) (b : Bool) (st : St) (hinv : Inv w fn st)
    (hh : ¬ st.halted) : (step b st).cost < st.cost := by
  have hd : st.dead = false := by
    cases hdd : st.dead with
    | false => rfl
    | true => exact absurd (Or.inl hdd) hh
  have hp := progress w fn st hinv hh
  unfold step
  rw [hd]
  simp only [Bool.false_eq_true, if_false]
  split_ifs with hb
  · cases hM : stepMain st with
    | some st1 => exact stepMain_cost st st1 hM
    | none =>
      cases hG : stepGor st with
      | some st1 => exact stepGor_cost st st1 hG
      | none => simp [hM, hG] at hp
  · cases hG : stepGor st with
    | some st1 => exact stepGor_cost st st1 hG
    | none =>
      cases hM : stepMain st with
      | some st1 => exact stepMain_cost st st1 hM
      | none => simp [hM, hG] at hp

theorem run_inv (w : World) (fn : Work) (sched : List Bool) (st : St) (hinv : Inv w fn st) :
    Inv w fn (run sched st) := by
  induction sched generalizing st with
  | nil => exact hinv
  | cons b sched ih => exact ih (step b st) (step_inv w fn b st hinv)

theorem run_halted (sched : List Bool) (st : St) (hh : st.halted) : run sched st = st := by
  induction sched with
  | nil => rfl
  | cons b sched ih => simp only [run, step_halted b st hh, ih]

theorem run_halts (w : World) (fn : Work) (sched : List Bool) (st : St) (hinv : Inv w fn st)
    (hlen : st.cost ≤ sched.length) : (run sched st).halted := by
  induction sched generalizing st with
  | nil =>
    by_contra hh
    have := step_cost w fn true st hinv hh
    simp at hlen
    omega
  | cons b sched ih =>
    by_cases hh : st.halted
    · rw [run_halted _ st hh]; exact hh
    · have hc := step_cost w fn b st hinv hh
      simp only [List.length_cons] at hlen
      exact ih (step b st) (step_inv w fn b st hinv) (by omega)

theorem exec_inv (w : World) (fn : Work) (sched : List Bool) : Inv w fn (exec sched w fn) :=
  run_inv w fn sched _ (Inv_start w fn)

theorem start_cost (w : World) (fn : Work) : (start w fn).cost = fuel fn := by
  simp [St.cost, start, MainPc.cost, GorPc.cost, fuel]

theorem exec_halts (w : World) (fn : Work) (sched : List Bool)
    (hlen : fuel fn ≤ sched.length) : (exec sched w fn).halted :=
  run_halts w fn sched _ (Inv_start w fn) (by rw [start_cost]; exact hlen)

theorem run_append (a b : List Bool) (st : St) : run (a ++ b) st = run b (run a st) := by
  induction a generalizing st with
  | nil => rfl
  | cons x a ih => exact ih (step x st)

theorem step_done (b : Bool) (st : St) (o : Outcome String) (hm : st.main = MainPc.done o) :
    (step b st).main = MainPc.done o := by
  have hM : stepMain st = none := by simp [stepMain, hm]
  have hG : ∀ st1, stepGor st = some st1 → st1.main = MainPc.done o := by
    intro st1 h
    unfold stepGor at h
    split at h
    · split_ifs at h <;> cases h <;> exact hm
    · split_ifs at h
      · cases h; exact hm
      · split at h
        next hm2 => rw [hm] at hm2; cases hm2
        next => cases h
    · cases h
    · cases h
  unfold step
  split_ifs
  · exact hm
  · rw [hM]
    cases hg : stepGor st with
    | none => exact hm
    | some st1 => exact hG st1 hg
  · cases hg : stepGor st with
    | none => simp [hM, hm]
    | some st1 => exact hG st1 hg

theorem run_done (sched : List Bool) (st : St) (o : Outcome String)
    (hm : st.main = MainPc.done o) : (run sched st).main = MainPc.done o := by
  induction sched generalizing st with
  | nil => exact hm
  | cons b sched ih => exact ih (step b st) (step_done b st o hm)

/-- On the path where the work returns, no panic escapes the started
goroutine. -/
theorem not_dead_of_returns (w : World) (fn : Work) (st : St) (hinv : Inv w fn st)
    (hfin : fn.fin = none) : st.dead = false := by
  obtain ⟨h1, h2, h3, hrest⟩ := hinv
  unfold St.dead
  revert hrest
  cases hm : st.main <;> cases hg : st.gor <;> simp [hg, afterWork, hfin, gorAtWork]

/-- A halted state on the path where the work returns: control is back with
the caller and the started goroutine has returned. -/
theorem halted_of_returns (w : World) (fn : Work) (st : St) (hinv : Inv w fn st)
    (hfin : fn.fin = none) (hh : st.halted) :
    st.main = MainPc.done (expected w fn) ∧ st.gor = GorPc.exited := by
  rcases hh with hd | ⟨⟨o, hm⟩, hg⟩
  · rw [not_dead_of_returns w fn st hinv hfin] at hd; cases hd
  · obtain ⟨h1, h2, h3, hrest⟩ := hinv
    rw [hm] at hrest
    rw [hm, hrest.1]
    exact ⟨rfl, hg⟩

/-- A halted state on the path where the work panics: the started goroutine
has panicked on the closed channel. -/
theorem halted_of_panics (w : World) (fn : Work) (st : St) (v : String) (hinv : Inv w fn st)
    (hfin : fn.fin = some v) (hh : st.halted) :
    st.gor = GorPc.crashed "send on closed channel" := by
  obtain ⟨h1, h2, h3, hrest⟩ := hinv
  rcases hh with hd | ⟨⟨o, hm⟩, hg⟩
  · unfold St.dead at hd
    revert hrest
    cases hm : st.main <;> cases hg : st.gor <;>
      simp [hg, afterWork, hfin, gorOnPanic, gorAtWork] at hd ⊢
    all_goals (intros; simp_all)
  · rw [hm] at hrest
    have ha := hrest.2.2.2.2.2.2
    simp [afterWork, hfin, gorOnPanic, hg] at ha

/-- The calling goroutine leaves the started one where it is, as long as that
one is copying. -/
theorem stepMain_gor (st st1 : St) (h : stepMain st = some st1) (hg : st.gor = GorPc.copying) :
    st1.gor = GorPc.copying := by
  unfold stepMain at h
  split at h
  · unfold writeTo at h; split_ifs at h <;> cases h <;> exact hg
  · unfold writeTo at h; split_ifs at h <;> cases h <;> exact hg
  · cases h; exact hg
  · cases h; exact hg
  · cases h; exact hg
  · cases h; exact hg
  · split_ifs at h
    · cases h; exact hg
    · rw [hg] at h; cases h
  · cases h; exact hg
  · cases h; exact hg
  · cases h; exact hg
  · cases h

/-- A step that prefers the calling goroutine, on the path where the work
panics: the started goroutine keeps copying until control is back with the
caller. -/
theorem step_mainFirst (w : World) (fn : Work) (v : String) (st : St) (hinv : Inv w fn st)
    (hfin : fn.fin = some v) (hg : st.gor = GorPc.copying)
    (hnd : ∀ o, st.main ≠ MainPc.done o) : (step true st).gor = GorPc.copying := by
  have hd : st.dead = false := by simp [St.dead, hg]
  unfold step
  rw [hd]
  simp only [Bool.false_eq_true, if_false, if_true]
  cases hM : stepMain st with
  | some st1 => exact stepMain_gor st st1 hM hg
  | none =>
    obtain ⟨h1, h2, h3, hrest⟩ := hinv
    cases hm : st.main with
    | running acts fin =>
      rw [hm] at hrest
      obtain ⟨hf, _, hro, hwo, hcc, hrs, hb, ho⟩ := hrest
      have hp := pipe_ne_nil_of_blocked st acts fin hm hM
      cases hpo : w.pipeOk with
      | true => simp [stepGor, hg, hro, hp, hpo]
      | false =>
        rw [captured_of_no_pipe w fn hpo] at hb
        exact absurd (List.append_eq_nil.mp (List.append_eq_nil.mp hb).2).1 hp
    | closeWrt => simp [stepMain, hm] at hM
    | recv =>
      rw [hm] at hrest
      rw [hfin] at hrest
      exact absurd hrest.1 (by simp)
    | deferCloseChan o => simp [stepMain, hm] at hM
    | deferCloseRdr o => simp [stepMain, hm] at hM
    | deferRestore o => simp [stepMain, hm] at hM
    | done o => exact absurd hm (hnd o)

/-- On the path where the work panics, a schedule that prefers the calling
goroutine brings control back to the caller. -/
theorem run_mainFirst (w : World) (fn : Work) (v : String) (n : Nat) (st : St)
    (hinv : Inv w fn st) (hfin : fn.fin = some v) (hg : st.gor = GorPc.copying)
    (hlen : st.cost ≤ n) : ∃ o, (run (List.replicate n true) st).main = MainPc.done o := by
  induction n generalizing st with
  | zero =>
    by_contra hc
    have hh : ¬ st.halted := by
      rintro (hd | ⟨⟨o, hm⟩, _⟩)
      · simp [St.dead, hg] at hd
      · exact hc ⟨o, hm⟩
    have := step_cost w fn true st hinv hh
    omega
  | succ n ih =>
    by_cases hdone : ∃ o, st.main = MainPc.done o
    · obtain ⟨o, hm⟩ := hdone
      exact ⟨o, run_done _ st o hm⟩
    · have hh : ¬ st.halted := by
        rintro (hd | ⟨hm, _⟩)
        · simp [St.dead, hg] at hd
        · exact hdone hm
      have hc := step_cost w fn true st hinv hh
      have hg1 := step_mainFirst w fn v st hinv hfin hg (fun o hm => hdone ⟨o, hm⟩)
      exact ih (step true st) (step_inv w fn true st hinv) hg1 (by omega)

/-- What the caller gets back is what the invariant prescribes. -/
theorem result_expected (w : World) (fn : Work) (st : St) (o : Outcome String)
    (hinv : Inv w fn st) (hm : st.main = MainPc.done o) : o = expected w fn := by
  obtain ⟨h1, h2, h3, hrest⟩ := hinv
  rw [hm] at hrest
  exact hrest.1

/-- A work that returns: under every schedule of `fuel fn` steps or more, `It`
returns the bytes the work sent into the pipe. -/
theorem It_of_returns (w : World) (fn : Work) (sched : List Bool) (hfin : fn.fin = none)
    (hlen : fuel fn ≤ sched.length) :
    It sched w fn = some (Outcome.returned (String.mk (captured w fn))) := by
  have h := halted_of_returns w fn _ (exec_inv w fn sched) hfin (exec_halts w fn sched hlen)
  simp [It, St.result, h.1, expected, hfin]

/-- A work that panics: under a schedule that starts with `fuel fn` steps
preferring the calling goroutine, the caller of `It` gets the panic. -/
theorem It_of_panics (w : World) (fn : Work) (v : String) (sched : List Bool)
    (hfin : fn.fin = some v) :
    It (List.replicate (fuel fn) true ++ sched) w fn = some (Outcome.panicked v) := by
  obtain ⟨o, hm⟩ := run_mainFirst w fn v (fuel fn) (start w fn) (Inv_start w fn) hfin rfl
    (by rw [start_cost])
  have ho := result_expected w fn _ o (run_inv w fn _ _ (Inv_start w fn)) hm
  have hm2 := run_done sched _ o hm
  simp [It, exec, St.result, run_append, hm2, ho, expected, hfin]

/-! ## Consequences of the invariant -/

/-- Once control is back with the caller, the state is the one the invariant
prescribes for the end of the call. -/
theorem done_state (w : World) (fn : Work) (sched : List Bool) (o : Outcome String)
    (h : It sched w fn = some o) :
    o = expected w fn ∧ (exec sched w fn).rdrOpen = false ∧
    (exec sched w fn).chanClosed = true ∧ (exec sched w fn).restores = 1 ∧
    (exec sched w fn).handle = w.handle ∧
    (exec sched w fn).out = finalOut w fn ∧
    afterWork w fn (exec sched w fn) := by
  have hinv := exec_inv w fn sched
  obtain ⟨h1, h2, h3, hrest⟩ := hinv
  unfold It St.result at h
  cases hm : (exec sched w fn).main <;> rw [hm] at h <;> simp at h
  subst h
  rw [hm] at hrest
  exact hrest

/-- Control comes back to the caller of `It` under a schedule that starts with
`fuel fn` steps preferring the calling goroutine. -/
theorem It_comes_back (w : World) (fn : Work) (sched : List Bool) :
    It (List.replicate (fuel fn) true ++ sched) w fn = some (expected w fn) := by
  cases hfin : fn.fin with
  | none =>
    rw [It_of_returns w fn _ hfin (by simp)]
    simp [expected, hfin]
  | some v =>
    rw [It_of_panics w fn v sched hfin]
    simp [expected, hfin]

/-- A work that panics: under every schedule of `fuel fn` steps or more the
started goroutine ends in a panic of its own. -/
theorem goroutine_crashes_of_panics (w : World) (fn : Work) (v : String) (sched : List Bool)
    (hfin : fn.fin = some v) (hlen : fuel fn ≤ sched.length) :
    (exec sched w fn).gor = GorPc.crashed "send on closed channel" :=
  halted_of_panics w fn _ v (exec_inv w fn sched) hfin (exec_halts w fn sched hlen)

/-- A work that panics: when control is back with the caller, the write end
of a pipe the call got is still open. -/
theorem write_end_open_of_panics (w : World) (fn : Work) (v : String) (sched : List Bool)
    (o : Outcome String) (hfin : fn.fin = some v) (h : It sched w fn = some o) :
    (exec sched w fn).wrtOpen = w.pipeOk := by
  have ha := (done_state w fn sched o h).2.2.2.2.2.2
  simp only [afterWork, hfin] at ha
  exact ha.1

/-- A work that returns: both ends of the pipe are closed and the started
goroutine has returned when control is back with the caller. -/
theorem pipe_closed_of_returns (w : World) (fn : Work) (sched : List Bool)
    (o : Outcome String) (hfin : fn.fin = none) (h : It sched w fn = some o) :
    (exec sched w fn).wrtOpen = false ∧ (exec sched w fn).rdrOpen = false ∧
    (exec sched w fn).gor = GorPc.exited := by
  have hd := done_state w fn sched o h
  have ha := hd.2.2.2.2.2.2
  simp only [afterWork, hfin] at ha
  exact ⟨ha.2, hd.2.1, ha.1⟩

theorem writeEnd_of_pipe (w : World) (hp : w.pipeOk = true) :
    writeEnd w = File.fd (w.nextFd + 1) := by
  simp [writeEnd, hp]

theorem pipeBytes_writes (n : Nat) (ws : List Bytes) :
    pipeBytes (File.fd n) (File.fd n) (ws.map Action.write) = ws.flatten := by
  induction ws with
  | nil => rfl
  | cons s ws ih => simp [pipeBytes, ih]

theorem pipeBytes_saved (wrt h g : File) (ws : List Bytes) (hg : g ≠ wrt) :
    pipeBytes wrt h (ws.map (Action.writeVia g)) = [] := by
  induction ws with
  | nil => rfl
  | cons s ws ih => simp [pipeBytes, ih, hg]

theorem outAfter_saved (rdr wrt h g : File) (o : File → Bytes) (ws : List Bytes)
    (hn : g ≠ File.nil) (hw : g ≠ wrt) (hr : g ≠ rdr) :
    outAfter rdr wrt h o (ws.map (Action.writeVia g)) g = o g ++ ws.flatten := by
  induction ws generalizing o with
  | nil => simp [outAfter]
  | cons s ws ih =>
    simp only [List.map_cons, outAfter, hn, hw, hr, or_self, if_false]
    rw [ih]
    simp [upd]

theorem join_data (ws : List String) (acc : String) :
    (ws.foldl (fun r s => r ++ s) acc).data = acc.data ++ (ws.map String.data).flatten := by
  induction ws generalizing acc with
  | nil => simp
  | cons s ws ih => simp [ih]

/-! ## The claims -/

/-- C1, as amended: when `os.Pipe` succeeds, a work that performs exactly one
write of `S` through `*osf` and returns makes `It` return exactly `S`, and a
work that writes nothing makes it return the empty string, under every
schedule long enough for the call. -/
theorem It_returns_the_written_string (w : World) (S : String) (sched : List Bool)
    (hp : w.pipeOk = true)
    (hlen : fuel ⟨[Action.write S.data], none⟩ ≤ sched.length) :
    It sched w ⟨[Action.write S.data], none⟩ = some (Outcome.returned S) ∧
    It sched w ⟨[], none⟩ = some (Outcome.returned "") := by
  constructor
  · rw [It_of_returns w _ sched rfl hlen]
    simp [captured, pipeBytes, writeEnd, hp]
  · rw [It_of_returns w _ sched rfl (by simp only [fuel, actsCost] at hlen ⊢; omega)]
    simp [captured, pipeBytes]

theorem It_returns_the_written_string_witness :
    sampleWorld.pipeOk = true ∧
    fuel ⟨[Action.write "hello world".data], none⟩ ≤ (gorFirst 40).length ∧
    It (gorFirst 40) sampleWorld ⟨[Action.write "hello world".data], none⟩ =
      some (Outcome.returned "hello world") ∧
    It (gorFirst 40) sampleWorld ⟨[], none⟩ = some (Outcome.returned "") :=
  ⟨rfl, by decide,
    It_returns_the_written_string sampleWorld "hello world" (gorFirst 40) rfl (by decide)⟩

/-- C1 as stated fails when `os.Pipe` fails: `wrt` is nil, the write of
`hello world` through `*osf` is lost and `It` returns the empty string. -/
theorem It_returns_empty_without_pipe :
    fuel ⟨[Action.write "hello world".data], none⟩ ≤ (gorFirst 40).length ∧
    It (gorFirst 40) brokenWorld ⟨[Action.write "hello world".data], none⟩ =
      some (Outcome.returned "") ∧
    It (gorFirst 40) brokenWorld ⟨[Action.write "hello world".data], none⟩ ≠
      some (Outcome.returned "hello world") := by
  decide

/-- C2: whenever `It` has returned control to its caller, after a return or
a panic of the work, `*osf` holds the value it held before the call and the
deferred restore has run exactly once; and control does come back under a
schedule that lets the calling goroutine run first. -/
theorem It_restores_the_handle (w : World) (fn : Work) (sched : List Bool) :
    (∀ o, It sched w fn = some o →
      (exec sched w fn).handle = w.handle ∧ (exec sched w fn).restores = 1) ∧
    It (List.replicate (fuel fn) true ++ sched) w fn = some (expected w fn) := by
  refine ⟨fun o h => ?_, It_comes_back w fn sched⟩
  have hd := done_state w fn sched o h
  exact ⟨hd.2.2.2.2.1, hd.2.2.2.1⟩

theorem It_restores_the_handle_witness :
    It (mainFirst 30) sampleWorld panicWork = some (Outcome.panicked "boom") ∧
    (exec (mainFirst 30) sampleWorld panicWork).handle = File.fd 1 ∧
    (exec (mainFirst 30) sampleWorld panicWork).restores = 1 :=
  ⟨by decide, (It_restores_the_handle sampleWorld panicWork (mainFirst 30)).1
    (Outcome.panicked "boom") (by decide)⟩

/-- C3, as amended: when `os.Pipe` succeeds, a work that performs the writes
`w1, ..., wn` through `*osf` and then returns makes `It` return their
concatenation in write order, under every schedule long enough for the
call. -/
theorem It_returns_writes_in_order (w : World) (ws : List String) (sched : List Bool)
    (hp : w.pipeOk = true)
    (hlen : fuel ⟨ws.map (fun s => Action.write s.data), none⟩ ≤ sched.length) :
    It sched w ⟨ws.map (fun s => Action.write s.data), none⟩ =
      some (Outcome.returned (String.join ws)) := by
  rw [It_of_returns w _ sched rfl hlen]
  have h : ws.map (fun s => Action.write s.data) = (ws.map String.data).map Action.write := by
    simp
  have hj : String.join ws = String.mk (ws.map String.data).flatten := by
    apply String.ext
    simp [String.join, join_data]
  simp only [captured, h, writeEnd_of_pipe w hp, pipeBytes_writes, hj]

theorem It_returns_writes_in_order_witness :
    sampleWorld.pipeOk = true ∧
    fuel ⟨["hello", " ", "world"].map (fun s => Action.write s.data), none⟩ ≤
      (gorFirst 40).length ∧
    It (gorFirst 40) sampleWorld ⟨["hello", " ", "world"].map (fun s => Action.write s.data), none⟩ =
      some (Outcome.returned (String.join ["hello", " ", "world"])) :=
  ⟨rfl, by decide, It_returns_writes_in_order sampleWorld ["hello", " ", "world"] (gorFirst 40)
    rfl (by decide)⟩

/-- C3 as stated fails when `os.Pipe` fails: the three writes through `*osf`
go to the nil `wrt`, all are dropped and `It` returns the empty string. -/
theorem It_drops_writes_without_pipe :
    fuel ⟨["hello", " ", "world"].map (fun s => Action.write s.data), none⟩ ≤
      (mainFirst 40).length ∧
    It (mainFirst 40) brokenWorld ⟨["hello", " ", "world"].map (fun s => Action.write s.data), none⟩ =
      some (Outcome.returned "") ∧
    It (mainFirst 40) brokenWorld ⟨["hello", " ", "world"].map (fun s => Action.write s.data), none⟩ ≠
      some (Outcome.returned (String.join ["hello", " ", "world"])) := by
  decide

/-- C4, as amended: for a work that returns and a pattern that compiles,
`Match` returns nil exactly when the pattern matches the string `It` returns,
and a non-nil error made by `errors.New` otherwise; the string `It` returns is
what the work wrote to the file put into `*osf`, which is the empty string
when `os.Pipe` failed. -/
theorem Match_nil_iff_pattern_matches (re : Regexp) (w : World) (fn : Work)
    (sched : List Bool) (regex : String) (m : String → Bool)
    (hfin : fn.fin = none) (hlen : fuel fn ≤ sched.length)
    (hc : re.compile regex = Except.ok m) :
    It sched w fn = some (Outcome.returned (String.mk (captured w fn))) ∧
    (Match re sched w fn regex = some (Outcome.returned none) ↔
      m (String.mk (captured w fn)) = true) ∧
    (m (String.mk (captured w fn)) = false →
      ∃ e, Match re sched w fn regex = some (Outcome.returned (some (GoError.errorString e)))) ∧
    (w.pipeOk = false → It sched w fn = some (Outcome.returned "")) := by
  refine ⟨It_of_returns w fn sched hfin hlen, ?_, ?_, ?_⟩
  · simp only [Match, It_of_returns w fn sched hfin hlen, Regexp.MatchString, hc]
    cases m (String.mk (captured w fn)) <;> simp
  · intro hm
    simp [Match, It_of_returns w fn sched hfin hlen, Regexp.MatchString, hc, hm]
  · intro hp
    rw [It_of_returns w fn sched hfin hlen, captured_of_no_pipe w fn hp]

theorem Match_nil_iff_pattern_matches_witness :
    (helloWork.fin = none ∧ fuel helloWork ≤ (mainFirst 40).length ∧
      sampleWorld.pipeOk = true ∧
      Match miniRegexp (mainFirst 40) sampleWorld helloWork "^hello" =
        some (Outcome.returned none)) ∧
    (silentWork.fin = none ∧ fuel silentWork ≤ (mainFirst 40).length ∧
      ∃ e, Match miniRegexp (mainFirst 40) sampleWorld silentWork ".+" =
        some (Outcome.returned (some (GoError.errorString e)))) :=
  ⟨⟨rfl, by decide, rfl,
      (Match_nil_iff_pattern_matches miniRegexp sampleWorld helloWork (mainFirst 40) "^hello"
        (fun s => matchItems [⟨some 'h', false⟩, ⟨some 'e', false⟩, ⟨some 'l', false⟩,
          ⟨some 'l', false⟩, ⟨some 'o', false⟩] s.data) rfl (by decide) rfl).2.1.2 (by decide)⟩,
    ⟨rfl, by decide,
      (Match_nil_iff_pattern_matches miniRegexp sampleWorld silentWork (mainFirst 40) ".+"
        (fun s => searchItems [⟨none, true⟩] s.data) rfl (by decide) rfl).2.2.1 (by decide)⟩⟩

/-- C4 as stated fails when `os.Pipe` fails: the work writes `hello world`,
which the pattern `^hello` matches, yet `It` returns the empty string and
`Match` returns the error for a text that does not match. -/
theorem Match_fails_scenario_without_pipe :
    miniRegexp.MatchString "^hello" "hello world" = (true, none) ∧
    Match miniRegexp (mainFirst 40) brokenWorld helloWork "^hello" =
      some (Outcome.returned (some (GoError.errorString
        "String: '' fails to match regexp: '^hello'."))) ∧
    Match miniRegexp (mainFirst 40) brokenWorld helloWork "^hello" ≠
      some (Outcome.returned none) := by
  decide

/-- C5: for a work that returns and a pattern that compiles and does not match
the captured text, the error `Match` returns has the message
`String: '<text>' fails to match regexp: '<pattern>'.`, which holds the text
and the pattern as substrings. -/
theorem Match_error_carries_text_and_pattern (re : Regexp) (w : World) (fn : Work)
    (sched : List Bool) (regex : String) (m : String → Bool)
    (hfin : fn.fin = none) (hlen : fuel fn ≤ sched.length)
    (hc : re.compile regex = Except.ok m) (hno : m (String.mk (captured w fn)) = false) :
    It sched w fn = some (Outcome.returned (String.mk (captured w fn))) ∧
    Match re sched w fn regex = some (Outcome.returned (some (GoError.errorString
      ("String: '" ++ String.mk (captured w fn) ++ "' fails to match regexp: '" ++ regex ++ "'.")))) ∧
    (∃ pre post, "String: '" ++ String.mk (captured w fn) ++ "' fails to match regexp: '" ++
        regex ++ "'." = pre ++ String.mk (captured w fn) ++ post) ∧
    (∃ pre post, "String: '" ++ String.mk (captured w fn) ++ "' fails to match regexp: '" ++
        regex ++ "'." = pre ++ regex ++ post) := by
  refine ⟨It_of_returns w fn sched hfin hlen, ?_, ?_, ?_⟩
  · simp [Match, It_of_returns w fn sched hfin hlen, Regexp.MatchString, hc, hno]
  · exact ⟨"String: '", "' fails to match regexp: '" ++ regex ++ "'.", by
      simp [String.append_assoc]⟩
  · exact ⟨"String: '" ++ String.mk (captured w fn) ++ "' fails to match regexp: '", "'.", rfl⟩

theorem Match_error_carries_text_and_pattern_witness :
    helloWork.fin = none ∧ fuel helloWork ≤ (gorFirst 40).length ∧
    Match miniRegexp (gorFirst 40) sampleWorld helloWork "^world" =
      some (Outcome.returned (some (GoError.errorString
        "String: 'hello world' fails to match regexp: '^world'."))) :=
  ⟨rfl, by decide,
    (Match_error_carries_text_and_pattern miniRegexp sampleWorld helloWork (gorFirst 40) "^world"
      (fun s => matchItems [⟨some 'w', false⟩, ⟨some 'o', false⟩, ⟨some 'r', false⟩,
        ⟨some 'l', false⟩, ⟨some 'd', false⟩] s.data) rfl (by decide) rfl (by decide)).2.1⟩

/-- C6: for a work that returns and a pattern that fails to compile, `Match`
returns exactly the compile error of the engine, whatever the work wrote. -/
theorem Match_returns_compile_error (re : Regexp) (w : World) (fn : Work)
    (sched : List Bool) (regex e : String)
    (hfin : fn.fin = none) (hlen : fuel fn ≤ sched.length)
    (hc : re.compile regex = Except.error e) :
    Match re sched w fn regex = some (Outcome.returned (some (GoError.regexp e))) := by
  simp [Match, It_of_returns w fn sched hfin hlen, Regexp.MatchString, hc]

theorem Match_returns_compile_error_witness :
    helloWork.fin = none ∧ fuel helloWork ≤ (mainFirst 40).length ∧
    miniRegexp.compile "[" = Except.error "error parsing regexp: [" ∧
    Match miniRegexp (mainFirst 40) sampleWorld helloWork "[" =
      some (Outcome.returned (some (GoError.regexp "error parsing regexp: ["))) :=
  ⟨rfl, by decide, rfl,
    Match_returns_compile_error miniRegexp sampleWorld helloWork (mainFirst 40) "["
      "error parsing regexp: [" rfl (by decide) rfl⟩

/-- C7, evaluated on a work that panics with `boom`.  When the calling
goroutine runs first, the caller gets the panic `boom` and the started
goroutine then panics with `send on closed channel`; and so it does when
`Match` made the call.  When the started goroutine runs first, its panic ends
the process before the deferred restore: control never comes back and `*osf`
still holds the write end of the pipe. -/
theorem It_panic_raises_second_panic :
    It (mainFirst 30) sampleWorld panicWork = some (Outcome.panicked "boom") ∧
    Match miniRegexp (mainFirst 30) sampleWorld panicWork "^hello" =
      some (Outcome.panicked "boom") ∧
    (exec (mainFirst 30) sampleWorld panicWork).gor = GorPc.crashed "send on closed channel" ∧
    It (gorFirst 30) sampleWorld panicWork = none ∧
    (exec (gorFirst 30) sampleWorld panicWork).gor = GorPc.crashed "send on closed channel" ∧
    (exec (gorFirst 30) sampleWorld panicWork).main =
      MainPc.deferRestore (Outcome.panicked "boom") ∧
    (exec (gorFirst 30) sampleWorld panicWork).handle = File.fd 4 ∧
    sampleWorld.handle = File.fd 1 := by
  decide

/-- C8: whenever `It` has returned control to its caller, after a return or
a panic of the work, the read end of the pipe of this call is closed; and
control does come back under a schedule that lets the calling goroutine run
first. -/
theorem It_closes_the_read_end (w : World) (fn : Work) (sched : List Bool) :
    (∀ o, It sched w fn = some o → (exec sched w fn).rdrOpen = false) ∧
    It (List.replicate (fuel fn) true ++ sched) w fn = some (expected w fn) :=
  ⟨fun o h => (done_state w fn sched o h).2.1, It_comes_back w fn sched⟩

theorem It_closes_the_read_end_witness :
    It (mainFirst 30) sampleWorld panicWork = some (Outcome.panicked "boom") ∧
    It (gorFirst 40) sampleWorld helloWork = some (Outcome.returned "hello world") ∧
    (exec (mainFirst 30) sampleWorld panicWork).rdrOpen = false ∧
    (exec (gorFirst 40) sampleWorld helloWork).rdrOpen = false :=
  ⟨by decide, by decide,
    (It_closes_the_read_end sampleWorld panicWork (mainFirst 30)).1 (Outcome.panicked "boom")
      (by decide),
    (It_closes_the_read_end sampleWorld helloWork (gorFirst 40)).1
      (Outcome.returned "hello world") (by decide)⟩

/-- C9, evaluated on a work that panics with `boom`: control comes back to the
caller with the read end of the pipe closed and the write end still open. -/
theorem It_panic_leaves_write_end_open :
    It (mainFirst 30) sampleWorld panicWork = some (Outcome.panicked "boom") ∧
    (exec (mainFirst 30) sampleWorld panicWork).rdrOpen = false ∧
    (exec (mainFirst 30) sampleWorld panicWork).wrtOpen = true := by
  decide

/-- C10: a work that writes only through a copy of the value `*osf` held
before the call makes `It` return the empty string, and its writes reach the
original file; in general, for every work that returns, `It` returns exactly
the bytes written to the file it put into `*osf`: those written through the
variable while it holds that value, or through a copy of that value the work
took. -/
theorem It_captures_only_through_the_handle (w : World) (n : Nat) (ws : List Bytes)
    (sched : List Bool) (hh : w.handle = File.fd n) (hwf : n < w.nextFd)
    (hlen : fuel ⟨ws.map (Action.writeVia w.handle), none⟩ ≤ sched.length) :
    It sched w ⟨ws.map (Action.writeVia w.handle), none⟩ = some (Outcome.returned "") ∧
    (exec sched w ⟨ws.map (Action.writeVia w.handle), none⟩).out w.handle =
      w.out w.handle ++ ws.flatten ∧
    (∀ (fn : Work) (sched1 : List Bool), fn.fin = none → fuel fn ≤ sched1.length →
      It sched1 w fn = some (Outcome.returned
        (String.mk (pipeBytes (writeEnd w) (writeEnd w) fn.acts)))) := by
  have hIt := It_of_returns w ⟨ws.map (Action.writeVia w.handle), none⟩ sched rfl hlen
  have hn : w.handle ≠ File.nil := by rw [hh]; exact fun h => File.noConfusion h
  have hw : w.handle ≠ writeEnd w := by
    rw [hh]
    unfold writeEnd
    split_ifs
    · intro h
      injection h with h
      omega
    · exact fun h => File.noConfusion h
  have hr : w.handle ≠ readEnd w := by
    rw [hh]
    unfold readEnd
    split_ifs
    · intro h
      injection h with h
      omega
    · exact fun h => File.noConfusion h
  have hcap : captured w ⟨ws.map (Action.writeVia w.handle), none⟩ = [] :=
    pipeBytes_saved _ _ _ ws hw
  refine ⟨?_, ?_, ?_⟩
  · rw [hIt, hcap]
  · rw [(done_state w _ sched _ hIt).2.2.2.2.2.1]
    exact outAfter_saved _ _ _ _ _ ws hn hw hr
  · intro fn sched1 hfin hlen1
    exact It_of_returns w fn sched1 hfin hlen1

theorem It_captures_only_through_the_handle_witness :
    sampleWorld.handle = File.fd 1 ∧ 1 < sampleWorld.nextFd ∧
    fuel ⟨["to the".data, " terminal".data].map (Action.writeVia sampleWorld.handle), none⟩ ≤
      (gorFirst 50).length ∧
    It (gorFirst 50) sampleWorld
      ⟨["to the".data, " terminal".data].map (Action.writeVia sampleWorld.handle), none⟩ =
      some (Outcome.returned "") ∧
    (exec (gorFirst 50) sampleWorld
      ⟨["to the".data, " terminal".data].map (Action.writeVia sampleWorld.handle), none⟩).out
        sampleWorld.handle = "to the terminal".data ∧
    It (gorFirst 50) sampleWorld
      ⟨[Action.assign (File.fd 2), Action.writeVia (File.fd 4) "x".data], none⟩ =
      some (Outcome.returned "x") :=
  ⟨rfl, by decide, by decide,
    (It_captures_only_through_the_handle sampleWorld 1 ["to the".data, " terminal".data]
      (gorFirst 50) rfl (by decide) (by decide)).1,
    (It_captures_only_through_the_handle sampleWorld 1 ["to the".data, " terminal".data]
      (gorFirst 50) rfl (by decide) (by decide)).2.1,
    (It_captures_only_through_the_handle sampleWorld 1 ["to the".data, " terminal".data]
      (gorFirst 50) rfl (by decide) (by decide)).2.2
      ⟨[Action.assign (File.fd 2), Action.writeVia (File.fd 4) "x".data], none⟩ (gorFirst 50)
      rfl (by decide)⟩

end Capture
